import Mathlib

/-!
Verification of the curation-signal allocation engine (`src/app.py`).

The Python source is shallowly embedded over `ℚ`: Python floats become exact
rationals, string-keyed dicts become functions `String → Option ℚ` (lookup)
or `String → ℚ` (the allocation dict, total with default written explicitly),
and Python's raising float division is modelled, where a zero denominator is
actually reachable, by `divE` returning `none` (a `ZeroDivisionError`).
Python's `sorted(key=..., reverse=True)` is a stable descending sort; it is
modelled by the stable insertion sort `sortDescBy`.
-/

namespace Curation

/-- A raw subgraph deployment as returned by the deployment source
(`get_subgraph_deployments`): id plus on-chain amounts in wei. -/
structure Deployment where
  ipfsHash : String
  signalAmount : ℚ
  signalledTokens : ℚ
  deriving DecidableEq, Repr

/-- An `Opportunity` record as built by `calculate_opportunities`
(app.py lines 113-123). -/
structure Opp where
  ipfsHash : String
  signalAmount : ℚ
  signalledTokens : ℚ
  annualQueries : ℚ
  totalEarnings : ℚ
  curatorShare : ℚ
  estimatedEarnings : ℚ
  apr : ℚ
  weeklyQueries : ℚ
  deriving DecidableEq, Repr

/-- A `UserPosition` record as built by `calculate_user_opportunities`
(app.py lines 163-171). -/
structure UserOpp where
  ipfsHash : String
  userSignal : ℚ
  totalSignal : ℚ
  portionOwned : ℚ
  estimatedEarnings : ℚ
  apr : ℚ
  weeklyQueries : ℚ
  deriving DecidableEq, Repr

/-- Stable descending insertion: place `x` before the first element whose key
is not above `key x`.  Together with `sortDescBy` this models Python's
`sorted(key=..., reverse=True)` (a stable sort: ties keep input order). -/
def insertDescBy {α : Type} (key : α → ℚ) (x : α) : List α → List α
  | [] => [x]
  | y :: ys => if key y ≤ key x then x :: y :: ys else y :: insertDescBy key x ys

/-- Stable descending sort by a rational key; models
`sorted(lst, key=..., reverse=True)`. -/
def sortDescBy {α : Type} (key : α → ℚ) : List α → List α
  | [] => []
  | x :: xs => insertDescBy key x (sortDescBy key xs)

/-- One iteration of the loop body of `calculate_opportunities`
(app.py lines 83-123): `none` when the deployment id is absent from the
query-count mapping (the record is simply not appended). -/
def scoreDeployment (queryCounts : String → Option ℚ) (grtPrice : ℚ)
    (d : Deployment) : Option Opp :=
  let signal_amount := d.signalAmount / 10 ^ 18
  let signalled_tokens := d.signalledTokens / 10 ^ 18
  match queryCounts d.ipfsHash with
  | none => none
  | some weekly_queries =>
    let annual_queries := weekly_queries * 52
    let total_earnings := annual_queries / 100000 * 4
    let curator_share := total_earnings * (1 / 10)
    let portion_owned := if 0 < signalled_tokens then signal_amount / signalled_tokens else 0
    let estimated_earnings := curator_share * portion_owned
    let apr := if 0 < signal_amount then estimated_earnings / (signal_amount * grtPrice) * 100 else 0
    some { ipfsHash := d.ipfsHash
           signalAmount := signal_amount
           signalledTokens := signalled_tokens
           annualQueries := annual_queries
           totalEarnings := total_earnings
           curatorShare := curator_share
           estimatedEarnings := estimated_earnings
           apr := apr
           weeklyQueries := weekly_queries }

/-- `calculate_opportunities` (app.py lines 80-129): build a record per
deployment present in the query-count mapping, drop zero-signal records,
sort descending by APR (stable). -/
def calculate_opportunities (deployments : List Deployment)
    (queryCounts : String → Option ℚ) (grtPrice : ℚ) : List Opp :=
  sortDescBy Opp.apr
    (((deployments.filterMap (scoreDeployment queryCounts grtPrice)).filter
      (fun o => decide (0 < o.signalAmount))))


/-- The APR the allocation loop attributes to adding 100 more tokens on top of
a candidate's current allocation (app.py lines 256-264). -/
def marginalApr (grt_price : ℚ) (opp : Opp) (alloc : ℚ) : ℚ :=
  let signal_amount := opp.signalAmount + alloc
  let signalled_tokens := opp.signalledTokens + alloc
  let new_signal_amount := signal_amount + 100
  let new_signalled_tokens := signalled_tokens + 100
  let portion_owned := new_signal_amount / new_signalled_tokens
  let estimated_earnings := opp.curatorShare * portion_owned
  estimated_earnings / (new_signal_amount * grt_price) * 100

/-- The inner `for opp in top_opportunities` selection loop of the allocator
(app.py lines 251-268), carrying the mutable `best_apr` and `best_opp`
variables as an accumulator: the candidate is replaced only when its marginal
APR is strictly greater than the best seen so far. -/
def bestFrom (g : Opp → ℚ) : ℚ → Option Opp → List Opp → ℚ × Option Opp
  | best_apr, best_opp, [] => (best_apr, best_opp)
  | best_apr, best_opp, opp :: rest =>
    if best_apr < g opp then bestFrom g (g opp) (some opp) rest
    else bestFrom g best_apr best_opp rest

/-- `allocations[h] += amt` on the allocation dict (app.py line 272). -/
def updateAlloc (allocations : String → ℚ) (h : String) (amt : ℚ) : String → ℚ :=
  fun h2 => if h2 = h then allocations h2 + amt else allocations h2

/-- The `best_opp` left by the selection loop (app.py lines 251-268), with
`best_apr` initialised to `-1` and `best_opp` to `None`. -/
def selectBest (grt_price : ℚ) (top_opportunities : List Opp)
    (allocations : String → ℚ) : Option Opp :=
  (bestFrom (fun o => marginalApr grt_price o (allocations o.ipfsHash))
    (-1) none top_opportunities).2

/-- The `while remaining_signal > 0` allocation loop (app.py lines 250-275),
with an explicit iteration allowance `fuel`.  Each pass selects the candidate
with the strictly greatest marginal APR (`best_apr` initialised to `-1`,
first candidate winning ties), commits `min 100 remaining` to it and
decrements the remaining budget by the full step of 100; it stops when the
remaining budget is no longer positive or no best candidate exists.
`allocLoopF_fuel_stable` below shows the result is independent of `fuel`
once `fuel` covers `iterBound remaining`, so the fuel is only a device to
express the unbounded `while` as structural recursion. -/
def allocLoopF (grt_price : ℚ) (top_opportunities : List Opp) :
    ℕ → (String → ℚ) → ℚ → (String → ℚ) × ℚ
  | 0, allocations, remaining_signal => (allocations, remaining_signal)
  | fuel + 1, allocations, remaining_signal =>
    if 0 < remaining_signal then
      match selectBest grt_price top_opportunities allocations with
      | some best_opp =>
          allocLoopF grt_price top_opportunities fuel
            (updateAlloc allocations best_opp.ipfsHash (min 100 remaining_signal))
            (remaining_signal - 100)
      | none => (allocations, remaining_signal)
    else (allocations, remaining_signal)

/-- Number of loop passes needed to drive a remaining budget of `b` to zero
in steps of 100. -/
def iterBound (b : ℚ) : ℕ := (⌈b / 100⌉).toNat

/-- The allocator: run the while loop from the all-zero allocation dict
(app.py lines 246-275). -/
def greedyAllocate (grt_price : ℚ) (top_opportunities : List Opp) (budget : ℚ) :
    (String → ℚ) × ℚ :=
  allocLoopF grt_price top_opportunities (iterBound budget) (fun _ => 0) budget

/-- Total amount the plan assigns across the candidate list. -/
def sumAllocs (opps : List Opp) (allocations : String → ℚ) : ℚ :=
  (opps.map (fun o => allocations o.ipfsHash)).sum

/-- `total_estimated_earnings_after` as accumulated by the display loop
(app.py lines 279-300): each candidate contributes
`curator_share * (signal_after / signalled_after)`. -/
def totalEstimatedEarningsAfter (opps : List Opp) (allocations : String → ℚ) : ℚ :=
  (opps.map (fun o =>
    o.curatorShare *
      ((o.signalAmount + allocations o.ipfsHash) /
        (o.signalledTokens + allocations o.ipfsHash)))).sum

/-- Modelled from the spec: simulate `new_signal = signal_amount +
current_allocation + step`, `new_signalled = signalled_tokens +
current_allocation + step`, `portion = new_signal / new_signalled`,
`marginal_apr = curator_share * portion / (new_signal * price) * 100`
with `step = 100`. -/
def specMarginalApr (price : ℚ) (opp : Opp) (current_allocation : ℚ) : ℚ :=
  let new_signal := opp.signalAmount + current_allocation + 100
  let new_signalled := opp.signalledTokens + current_allocation + 100
  let portion := new_signal / new_signalled
  opp.curatorShare * portion / (new_signal * price) * 100

/-- Modelled from the spec: the candidate with the strictly greatest marginal
APR, the first in iteration order winning ties — i.e. the first candidate
whose marginal APR is at least every candidate's marginal APR. -/
def specPick (g : Opp → ℚ) (candidates : List Opp) : Option Opp :=
  candidates.find? (fun o1 => candidates.all (fun o2 => decide (g o2 ≤ g o1)))

/-- Modelled from the spec: while remaining budget > 0, pick the candidate
with the strictly greatest marginal APR (first in iteration order wins ties),
commit `min step remaining` to it and decrement the remaining budget by the
full step of 100; stop early if no candidate exists. -/
def specLoopF (price : ℚ) (candidates : List Opp) :
    ℕ → (String → ℚ) → ℚ → (String → ℚ) × ℚ
  | 0, allocs, remaining => (allocs, remaining)
  | fuel + 1, allocs, remaining =>
    if 0 < remaining then
      match specPick (fun o => specMarginalApr price o (allocs o.ipfsHash)) candidates with
      | some best =>
          specLoopF price candidates fuel
            (updateAlloc allocs best.ipfsHash (min 100 remaining)) (remaining - 100)
      | none => (allocs, remaining)
    else (allocs, remaining)

/-- Modelled from the spec: the whole greedy allocation pass, starting from
the all-zero allocation. -/
def specGreedyAllocate (price : ℚ) (candidates : List Opp) (budget : ℚ) :
    (String → ℚ) × ℚ :=
  specLoopF price candidates (iterBound budget) (fun _ => 0) budget

/-- One qualitative recommendation (app.py lines 225-229): either move stake
between two deployments (citing both ids and both APRs) or increase stake on
one (citing before/after APR). -/
inductive Suggestion where
  | move (fromId : String) (fromApr : ℚ) (toId : String) (toApr : ℚ)
  | increase (id : String) (beforeApr : ℚ) (afterApr : ℚ)
  deriving DecidableEq, Repr

/-- The suggestion the recommendation loop emits for one rank slot
(app.py lines 226-229): `none` when the slot produces no output line. -/
def suggestionFor (user_opp : UserOpp) (market_opp : Opp) : Option Suggestion :=
  if user_opp.ipfsHash ≠ market_opp.ipfsHash then
    some (Suggestion.move user_opp.ipfsHash user_opp.apr market_opp.ipfsHash market_opp.apr)
  else if user_opp.apr < market_opp.apr then
    some (Suggestion.increase user_opp.ipfsHash user_opp.apr market_opp.apr)
  else none

/-- The recommendation generator (app.py line 225):
`zip(user_opportunities, opportunities[:5])` compared slot by slot. -/
def recommendations (user_opportunities : List UserOpp) (opportunities : List Opp) :
    List (Option Suggestion) :=
  (user_opportunities.zip (opportunities.take 5)).map (fun p => suggestionFor p.1 p.2)

/-- Python's raising float division: `none` models a `ZeroDivisionError`. -/
def divE (a b : ℚ) : Option ℚ := if b = 0 then none else some (a / b)

/-- `scoreDeployment` with every division routed through `divE`:
`none` models an uncaught `ZeroDivisionError`, `some none` a deployment
skipped because its id is absent from the query-count mapping. -/
def scoreDeploymentE (queryCounts : String → Option ℚ) (grtPrice : ℚ)
    (d : Deployment) : Option (Option Opp) := do
  let signal_amount ← divE d.signalAmount (10 ^ 18)
  let signalled_tokens ← divE d.signalledTokens (10 ^ 18)
  match queryCounts d.ipfsHash with
  | none => return none
  | some weekly_queries =>
    let annual_queries := weekly_queries * 52
    let total_earnings ← (do
      let x ← divE annual_queries 100000
      return x * 4)
    let curator_share := total_earnings * (1 / 10)
    let portion_owned ← if 0 < signalled_tokens then
        divE signal_amount signalled_tokens
      else pure 0
    let estimated_earnings := curator_share * portion_owned
    let apr ← if 0 < signal_amount then (do
        let x ← divE estimated_earnings (signal_amount * grtPrice)
        return x * 100)
      else pure 0
    return some { ipfsHash := d.ipfsHash
                  signalAmount := signal_amount
                  signalledTokens := signalled_tokens
                  annualQueries := annual_queries
                  totalEarnings := total_earnings
                  curatorShare := curator_share
                  estimatedEarnings := estimated_earnings
                  apr := apr
                  weeklyQueries := weekly_queries }

/-- One row of the post-allocation display table (app.py lines 281-311),
with the unguarded divisions routed through `divE`.  The after-APR is only
computed when the candidate received a nonzero allocation (line 298). -/
structure RowAfter where
  ipfsHash : String
  signalAfter : ℚ
  portionAfter : ℚ
  estimatedEarningsAfter : ℚ
  aprAfter : Option ℚ
  deriving DecidableEq, Repr

/-- Body of the display loop for one candidate (app.py lines 281-300):
`none` models an uncaught `ZeroDivisionError`. -/
def rowAfterE (grt_price : ℚ) (allocations : String → ℚ) (opp : Opp) :
    Option RowAfter := do
  let allocated_amount := allocations opp.ipfsHash
  let signal_amount_after := opp.signalAmount + allocated_amount
  let signalled_tokens_after := opp.signalledTokens + allocated_amount
  let portion_owned_after ← divE signal_amount_after signalled_tokens_after
  let estimated_earnings_after := opp.curatorShare * portion_owned_after
  let apr_after ← if 0 < allocated_amount then (do
      let x ← divE estimated_earnings_after (signal_amount_after * grt_price)
      return some (x * 100))
    else pure none
  return { ipfsHash := opp.ipfsHash
           signalAfter := signal_amount_after
           portionAfter := portion_owned_after
           estimatedEarningsAfter := estimated_earnings_after
           aprAfter := apr_after }

/-- The post-allocation report (app.py lines 278-300 and 349-350): the rows,
then `overall_apr = (total_estimated_earnings_after /
(total_signal_to_add * grt_price)) * 100` with the unguarded division routed
through `divE`.  `none` models an uncaught `ZeroDivisionError`. -/
def allocationReport (grt_price : ℚ) (top_opportunities : List Opp)
    (allocations : String → ℚ) (total_signal_to_add : ℚ) :
    Option (List RowAfter × ℚ) := do
  let rows ← top_opportunities.mapM (rowAfterE grt_price allocations)
  let total := (rows.map (fun r => r.estimatedEarningsAfter)).sum
  let overall ← divE total (total_signal_to_add * grt_price)
  return (rows, overall * 100)

/-- `overall_user_apr` (app.py lines 213-215): total user earnings divided by
the dollar value of the total user signal, unguarded. -/
def overallUserAprE (user_opportunities : List UserOpp) (grt_price : ℚ) : Option ℚ := do
  let total_user_signal := (user_opportunities.map (fun o => o.userSignal)).sum
  let total_user_earnings := (user_opportunities.map (fun o => o.estimatedEarnings)).sum
  let x ← divE total_user_earnings (total_user_signal * grt_price)
  return x * 100

/-- Witness candidate for the allocator refinement: scenario A of the spec
(signal 1000, signalled 1000, 700000 weekly queries, curator share 145.6). -/
def c1w : Opp :=
  { ipfsHash := "c1", signalAmount := 1000, signalledTokens := 1000
    annualQueries := 36400000, totalEarnings := 1456, curatorShare := 1456 / 10
    estimatedEarnings := 1456 / 10, apr := 1456, weeklyQueries := 700000 }

/-- Deployment used to refute the scorer claim at a negative price. -/
def c2dep : Deployment :=
  { ipfsHash := "c2", signalAmount := 2 * 10 ^ 18, signalledTokens := 2 * 10 ^ 18 }

/-- Query-count mapping containing exactly `c2dep`. -/
def c2q : String → Option ℚ := fun h => if h = "c2" then some 700000 else none

/-- Deployment used to witness the amended scorer claim at price 1. -/
def c2wdep : Deployment :=
  { ipfsHash := "c2w", signalAmount := 10 ^ 18, signalledTokens := 10 ^ 18 }

/-- Query-count mapping containing exactly `c2wdep`. -/
def c2wq : String → Option ℚ := fun h => if h = "c2w" then some 100000 else none

/-- A perfectly ordinary candidate (signal 1, signalled 1, curator share 7):
with budget 0 the report's overall-APR division still has denominator 0. -/
def c3opp : Opp :=
  { ipfsHash := "c3", signalAmount := 1, signalledTokens := 1
    annualQueries := 0, totalEarnings := 0, curatorShare := 7
    estimatedEarnings := 0, apr := 0, weeklyQueries := 0 }

/-- Deployment whose scoring divides by `signal_amount * price = 0` when the
price is 0. -/
def c3dep : Deployment :=
  { ipfsHash := "c3d", signalAmount := 10 ^ 18, signalledTokens := 10 ^ 18 }

/-- Query-count mapping containing exactly `c3dep`. -/
def c3q : String → Option ℚ := fun h => if h = "c3d" then some 700000 else none

/-- Single candidate of the budget-250 scenario. -/
def c4opp : Opp :=
  { ipfsHash := "c4", signalAmount := 1000, signalledTokens := 1000
    annualQueries := 0, totalEarnings := 0, curatorShare := 146
    estimatedEarnings := 0, apr := 0, weeklyQueries := 0 }

/-- Single candidate showing that budget 250 is allocated in full. -/
def c5opp : Opp :=
  { ipfsHash := "c5", signalAmount := 1000, signalledTokens := 1000
    annualQueries := 0, totalEarnings := 0, curatorShare := 146
    estimatedEarnings := 0, apr := 0, weeklyQueries := 0 }

/-- Witness candidate for the amended single-candidate claim. -/
def c5wopp : Opp :=
  { ipfsHash := "c5w", signalAmount := 500, signalledTokens := 600
    annualQueries := 0, totalEarnings := 0, curatorShare := 20
    estimatedEarnings := 0, apr := 0, weeklyQueries := 0 }

/-- Witness candidate for the allocation bounds claim. -/
def c6wopp : Opp :=
  { ipfsHash := "c6", signalAmount := 10, signalledTokens := 20
    annualQueries := 0, totalEarnings := 0, curatorShare := 5
    estimatedEarnings := 0, apr := 0, weeklyQueries := 0 }

/-- Candidate with `signal_amount > signalled_tokens`: its share of the pool
shrinks as stake is added, so a larger budget lowers the earnings. -/
def c7opp : Opp :=
  { ipfsHash := "c7", signalAmount := 200, signalledTokens := 100
    annualQueries := 0, totalEarnings := 0, curatorShare := 100
    estimatedEarnings := 0, apr := 0, weeklyQueries := 0 }

/-- Witness candidate (valid data, signal 100 of 400) for the amended
budget-monotonicity claim. -/
def c7wopp : Opp :=
  { ipfsHash := "c7w", signalAmount := 100, signalledTokens := 400
    annualQueries := 0, totalEarnings := 0, curatorShare := 50
    estimatedEarnings := 0, apr := 0, weeklyQueries := 0 }

/-- Wallet position used by the recommendation witness. -/
def c8u : UserOpp :=
  { ipfsHash := "u1", userSignal := 10, totalSignal := 100, portionOwned := 1 / 10
    estimatedEarnings := 5, apr := 12, weeklyQueries := 300 }

/-- Market opportunity used by the recommendation witness. -/
def c8m : Opp :=
  { ipfsHash := "m1", signalAmount := 50, signalledTokens := 200
    annualQueries := 0, totalEarnings := 0, curatorShare := 9
    estimatedEarnings := 0, apr := 40, weeklyQueries := 500 }

section SortLemmas

variable {α : Type} (key : α → ℚ)

theorem mem_insertDescBy {x z : α} : ∀ {l : List α},
    z ∈ insertDescBy key x l ↔ z = x ∨ z ∈ l := by
  intro l
  induction l with
  | nil => simp [insertDescBy]
  | cons y ys ih =>
    by_cases h : key y ≤ key x
    · simp [insertDescBy, h]
    · simp [insertDescBy, h, ih]
      tauto

theorem insertDescBy_perm (x : α) : ∀ l : List α,
    (insertDescBy key x l).Perm (x :: l) := by
  intro l
  induction l with
  | nil => simp [insertDescBy]
  | cons y ys ih =>
    by_cases h : key y ≤ key x
    · simp [insertDescBy, h]
    · simp only [insertDescBy, if_neg h]
      exact (ih.cons y).trans (List.Perm.swap x y ys)

theorem sortDescBy_perm : ∀ l : List α, (sortDescBy key l).Perm l := by
  intro l
  induction l with
  | nil => simp [sortDescBy]
  | cons x xs ih =>
    exact (insertDescBy_perm key x (sortDescBy key xs)).trans (ih.cons x)

theorem insertDescBy_pairwise {x : α} {l : List α}
    (h : l.Pairwise (fun a b => key b ≤ key a)) :
    (insertDescBy key x l).Pairwise (fun a b => key b ≤ key a) := by
  induction l with
  | nil => simp [insertDescBy]
  | cons y ys ih =>
    rcases List.pairwise_cons.mp h with ⟨hy, hys⟩
    by_cases hkey : key y ≤ key x
    · rw [insertDescBy, if_pos hkey]
      refine List.pairwise_cons.mpr ⟨?_, h⟩
      intro z hz
      rcases List.mem_cons.mp hz with rfl | hz
      · exact hkey
      · exact le_trans (hy z hz) hkey
    · rw [insertDescBy, if_neg hkey]
      refine List.pairwise_cons.mpr ⟨?_, ih hys⟩
      intro z hz
      rcases (mem_insertDescBy key).mp hz with rfl | hz
      · exact le_of_lt (lt_of_not_le hkey)
      · exact hy z hz

theorem sortDescBy_pairwise : ∀ l : List α,
    (sortDescBy key l).Pairwise (fun a b => key b ≤ key a) := by
  intro l
  induction l with
  | nil => simp [sortDescBy]
  | cons x xs ih => exact insertDescBy_pairwise key ih

theorem insertDescBy_filter_key (x : α) (c : ℚ) : ∀ l : List α,
    l.Pairwise (fun a b => key b ≤ key a) →
    (insertDescBy key x l).filter (fun z => decide (key z = c)) =
      if key x = c then x :: l.filter (fun z => decide (key z = c))
      else l.filter (fun z => decide (key z = c)) := by
  intro l
  induction l with
  | nil =>
    intro _
    by_cases h : key x = c <;> simp [insertDescBy, List.filter, h]
  | cons y ys ih =>
    intro hp
    rcases List.pairwise_cons.mp hp with ⟨hy, hys⟩
    by_cases hkey : key y ≤ key x
    · rw [insertDescBy, if_pos hkey]
      by_cases hx : key x = c <;> simp [List.filter_cons, hx]
    · have hlt : key x < key y := lt_of_not_le hkey
      rw [insertDescBy, if_neg hkey]
      by_cases hx : key x = c
      · have hyc : key y ≠ c := by
          intro hyc
          exact absurd (hx ▸ hyc : key y = key x) (ne_of_gt hlt)
        rw [if_pos hx]
        simp [List.filter_cons, hyc, ih hys, hx]
      · rw [if_neg hx]
        simp [List.filter_cons, ih hys, hx]

theorem sortDescBy_filter_key (c : ℚ) : ∀ l : List α,
    (sortDescBy key l).filter (fun z => decide (key z = c)) =
      l.filter (fun z => decide (key z = c)) := by
  intro l
  induction l with
  | nil => simp [sortDescBy]
  | cons x xs ih =>
    rw [sortDescBy, insertDescBy_filter_key key x c _ (sortDescBy_pairwise key xs)]
    by_cases hx : key x = c
    · simp [List.filter, hx, ih]
    · simp [List.filter, hx, ih]

theorem mem_sortDescBy {z : α} {l : List α} :
    z ∈ sortDescBy key l ↔ z ∈ l :=
  (sortDescBy_perm key l).mem_iff

end SortLemmas

section SelectionLemmas

theorem find_ext {α : Type} (p q : α → Bool) : ∀ l : List α,
    (∀ x ∈ l, p x = q x) → l.find? p = l.find? q := by
  intro l
  induction l with
  | nil => intro _; rfl
  | cons a as ih =>
    intro h
    have ha := h a (List.mem_cons_self a as)
    by_cases hqa : q a = true
    · rw [List.find?_cons_of_pos _ (ha.trans hqa), List.find?_cons_of_pos _ hqa]
    · rw [List.find?_cons_of_neg _ (by rw [ha]; exact hqa),
        List.find?_cons_of_neg _ hqa]
      exact ih (fun x hx => h x (List.mem_cons_of_mem a hx))

theorem bestFrom_all_le (g : Opp → ℚ) : ∀ (l : List Opp) (A : ℚ) (x : Option Opp),
    (∀ o ∈ l, g o ≤ A) → bestFrom g A x l = (A, x) := by
  intro l
  induction l with
  | nil => intro A x _; rfl
  | cons o rest ih =>
    intro A x h
    rw [bestFrom, if_neg (not_lt.mpr (h o (List.mem_cons_self o rest)))]
    exact ih A x (fun o2 h2 => h o2 (List.mem_cons_of_mem o h2))

theorem bestFrom_mem (g : Opp → ℚ) : ∀ (l : List Opp) (A : ℚ) (x : Option Opp) (o : Opp),
    (bestFrom g A x l).2 = some o → o ∈ l ∨ x = some o := by
  intro l
  induction l with
  | nil => intro A x o h; exact Or.inr h
  | cons a rest ih =>
    intro A x o h
    by_cases ha : A < g a
    · rw [bestFrom, if_pos ha] at h
      rcases ih (g a) (some a) o h with hm | he
      · exact Or.inl (List.mem_cons_of_mem a hm)
      · exact Or.inl (by rw [← Option.some_inj.mp he]; exact List.mem_cons_self a rest)
    · rw [bestFrom, if_neg ha] at h
      rcases ih A x o h with hm | he
      · exact Or.inl (List.mem_cons_of_mem a hm)
      · exact Or.inr he

theorem bestFrom_spec (g : Opp → ℚ) : ∀ (l : List Opp) (A : ℚ) (x : Option Opp),
    (∃ o ∈ l, A < g o) →
    (bestFrom g A x l).2 =
      l.find? (fun o1 => l.all (fun o2 => decide (g o2 ≤ g o1))) := by
  intro l
  induction l with
  | nil => intro A x h; simp at h
  | cons o rest ih =>
    intro A x hex
    by_cases ho : A < g o
    · rw [bestFrom, if_pos ho]
      by_cases hall : ∀ o2 ∈ rest, g o2 ≤ g o
      · rw [bestFrom_all_le g rest (g o) (some o) hall]
        have hpred : ((o :: rest).all (fun o2 => decide (g o2 ≤ g o))) = true := by
          simp only [List.all_eq_true, decide_eq_true_eq]
          intro o2 h2
          rcases List.mem_cons.mp h2 with rfl | h2
          · exact le_refl _
          · exact hall o2 h2
        rw [List.find?_cons]
        simp only [hpred]
      · push_neg at hall
        obtain ⟨w, hw, hgw⟩ := hall
        rw [ih (g o) (some o) ⟨w, hw, hgw⟩]
        have hno : ((o :: rest).all (fun o2 => decide (g o2 ≤ g o))) = false := by
          simp only [List.all_eq_false, decide_eq_true_eq]
          exact ⟨w, List.mem_cons_of_mem o hw, not_le.mpr hgw⟩
        rw [List.find?_cons]
        simp only [hno]
        apply find_ext
        intro o1 h1
        cases hra : rest.all (fun o2 => decide (g o2 ≤ g o1)) with
        | false => simp [List.all_cons, hra]
        | true =>
          have hw1 : g w ≤ g o1 := by
            have := List.all_eq_true.mp hra w hw
            simpa using this
          have hoo1 : g o ≤ g o1 := le_trans (le_of_lt hgw) hw1
          simp [List.all_cons, hra, hoo1]
    · rw [bestFrom, if_neg ho]
      obtain ⟨w, hw, hAw⟩ := hex
      have hwrest : w ∈ rest := by
        rcases List.mem_cons.mp hw with rfl | h
        · exact absurd hAw ho
        · exact h
      rw [ih A x ⟨w, hwrest, hAw⟩]
      have hgo : g o ≤ A := not_lt.mp ho
      have hno : ((o :: rest).all (fun o2 => decide (g o2 ≤ g o))) = false := by
        simp only [List.all_eq_false, decide_eq_true_eq]
        exact ⟨w, List.mem_cons_of_mem o hwrest, not_le.mpr (by linarith)⟩
      rw [List.find?_cons]
      simp only [hno]
      apply find_ext
      intro o1 h1
      cases hra : rest.all (fun o2 => decide (g o2 ≤ g o1)) with
      | false => simp [List.all_cons, hra]
      | true =>
        have hw1 : g w ≤ g o1 := by
          have := List.all_eq_true.mp hra w hwrest
          simpa using this
        have hoo1 : g o ≤ g o1 := by linarith
        simp [List.all_cons, hra, hoo1]

theorem marginalApr_nonneg (price : ℚ) (opp : Opp) (alloc : ℚ)
    (hp : 0 < price) (hcs : 0 ≤ opp.curatorShare) (hs : 0 ≤ opp.signalAmount)
    (ht : 0 ≤ opp.signalledTokens) (ha : 0 ≤ alloc) :
    0 ≤ marginalApr price opp alloc := by
  have h1 : (0:ℚ) < opp.signalAmount + alloc + 100 := by linarith
  have h2 : (0:ℚ) < opp.signalledTokens + alloc + 100 := by linarith
  simp only [marginalApr]
  apply mul_nonneg _ (by norm_num)
  apply div_nonneg
  · exact mul_nonneg hcs (div_nonneg (le_of_lt h1) (le_of_lt h2))
  · exact mul_nonneg (le_of_lt h1) (le_of_lt hp)

end SelectionLemmas

section LoopLemmas

theorem allocLoopF_nonpos (p : ℚ) (opps : List Opp) (f : ℕ) (a : String → ℚ) (r : ℚ)
    (h : ¬ 0 < r) : allocLoopF p opps f a r = (a, r) := by
  cases f with
  | zero => rfl
  | succ n =>
    simp only [allocLoopF]
    rw [if_neg h]

theorem allocLoopF_le (p : ℚ) (opps : List Opp) : ∀ (f : ℕ) (a : String → ℚ) (r : ℚ)
    (id : String), a id ≤ (allocLoopF p opps f a r).1 id := by
  intro f
  induction f with
  | zero => intro a r id; exact le_refl _
  | succ n ih =>
    intro a r id
    simp only [allocLoopF]
    by_cases hr : 0 < r
    · rw [if_pos hr]
      cases hb : selectBest p opps a with
      | none => exact le_refl _
      | some best =>
        refine le_trans ?_ (ih _ _ id)
        simp only [updateAlloc]
        by_cases hid : id = best.ipfsHash
        · rw [if_pos hid]
          have : (0:ℚ) ≤ min 100 r := le_min (by norm_num) (le_of_lt hr)
          linarith
        · rw [if_neg hid]
    · rw [if_neg hr]

theorem allocLoopF_succ_stable (p : ℚ) (opps : List Opp) :
    ∀ (f : ℕ) (a : String → ℚ) (r : ℚ), r ≤ 100 * (f : ℚ) →
    allocLoopF p opps f a r = allocLoopF p opps (f + 1) a r := by
  intro f
  induction f with
  | zero =>
    intro a r h
    norm_num at h
    rw [allocLoopF_nonpos p opps 1 a r (not_lt.mpr h)]
    rfl
  | succ n ih =>
    intro a r h
    by_cases hr : 0 < r
    · simp only [allocLoopF, if_pos hr]
      cases hb : selectBest p opps a with
      | none => rfl
      | some best =>
        apply ih
        push_cast at h ⊢
        linarith
    · rw [allocLoopF_nonpos p opps _ a r hr, allocLoopF_nonpos p opps _ a r hr]

theorem allocLoopF_fuel_stable (p : ℚ) (opps : List Opp) :
    ∀ (k f : ℕ) (a : String → ℚ) (r : ℚ), r ≤ 100 * (f : ℚ) →
    allocLoopF p opps f a r = allocLoopF p opps (f + k) a r := by
  intro k
  induction k with
  | zero => intro f a r _; rfl
  | succ n ih =>
    intro f a r h
    rw [ih f a r h]
    have h2 : r ≤ 100 * ((f + n : ℕ) : ℚ) := by
      push_cast at h ⊢
      linarith [Nat.cast_nonneg (α := ℚ) n]
    rw [allocLoopF_succ_stable p opps (f + n) a r h2]
    rfl

theorem le_hundred_iterBound (b : ℚ) : b ≤ 100 * (iterBound b : ℚ) := by
  unfold iterBound
  have h1 : b / 100 ≤ (⌈b / 100⌉ : ℚ) := Int.le_ceil _
  have h2 : (⌈b / 100⌉ : ℤ) ≤ ((⌈b / 100⌉.toNat : ℕ) : ℤ) := Int.self_le_toNat _
  have h2' : ((⌈b / 100⌉ : ℤ) : ℚ) ≤ ((⌈b / 100⌉.toNat : ℕ) : ℚ) := by
    exact_mod_cast h2
  push_cast at h2'
  linarith

theorem iterBound_mono {b1 b2 : ℚ} (h : b1 ≤ b2) : iterBound b1 ≤ iterBound b2 := by
  unfold iterBound
  exact Int.toNat_le_toNat (Int.ceil_le_ceil (by linarith))

theorem selectBest_eq_specPick (price : ℚ) (opps : List Opp) (a : String → ℚ)
    (hp : 0 < price)
    (hd : ∀ o ∈ opps, 0 ≤ o.curatorShare ∧ 0 ≤ o.signalAmount ∧ 0 ≤ o.signalledTokens)
    (ha : ∀ o ∈ opps, 0 ≤ a o.ipfsHash) :
    selectBest price opps a =
      specPick (fun o => specMarginalApr price o (a o.ipfsHash)) opps := by
  have hg : ∀ o ∈ opps, (-1 : ℚ) < marginalApr price o (a o.ipfsHash) := by
    intro o ho
    obtain ⟨h1, h2, h3⟩ := hd o ho
    have := marginalApr_nonneg price o (a o.ipfsHash) hp h1 h2 h3 (ha o ho)
    linarith
  cases opps with
  | nil => rfl
  | cons o rest =>
    unfold selectBest specPick
    exact bestFrom_spec _ (o :: rest) (-1) none
      ⟨o, List.mem_cons_self o rest, hg o (List.mem_cons_self o rest)⟩

theorem allocLoopF_eq_specLoopF (price : ℚ) (opps : List Opp)
    (hp : 0 < price)
    (hd : ∀ o ∈ opps, 0 ≤ o.curatorShare ∧ 0 ≤ o.signalAmount ∧ 0 ≤ o.signalledTokens) :
    ∀ (f : ℕ) (a : String → ℚ) (r : ℚ), (∀ o ∈ opps, 0 ≤ a o.ipfsHash) →
    allocLoopF price opps f a r = specLoopF price opps f a r := by
  intro f
  induction f with
  | zero => intro a r _; rfl
  | succ n ih =>
    intro a r ha
    simp only [allocLoopF, specLoopF]
    by_cases hr : 0 < r
    · rw [if_pos hr, if_pos hr, ← selectBest_eq_specPick price opps a hp hd ha]
      cases hb : selectBest price opps a with
      | none => rfl
      | some best =>
        apply ih
        intro o ho
        simp only [updateAlloc]
        by_cases hid : o.ipfsHash = best.ipfsHash
        · rw [if_pos hid]
          have hmin : (0:ℚ) ≤ min 100 r := le_min (by norm_num) (le_of_lt hr)
          have := ha o ho
          linarith
        · rw [if_neg hid]
          exact ha o ho
    · rw [if_neg hr, if_neg hr]

theorem allocLoopF_single (price : ℚ) (c : Opp)
    (hp : 0 < price) (hcs : 0 ≤ c.curatorShare) (hs : 0 ≤ c.signalAmount)
    (ht : 0 ≤ c.signalledTokens) :
    ∀ (f : ℕ) (a : String → ℚ) (b : ℚ), b ≤ 100 * (f : ℚ) → 0 ≤ a c.ipfsHash →
    (allocLoopF price [c] f a b).1 c.ipfsHash = a c.ipfsHash + max b 0 := by
  intro f
  induction f with
  | zero =>
    intro a b h _
    norm_num at h
    simp [allocLoopF, max_eq_right h]
  | succ n ih =>
    intro a b h ha
    by_cases hb : 0 < b
    · have hsel : selectBest price [c] a = some c := by
        unfold selectBest
        rw [bestFrom]
        have : (-1:ℚ) < marginalApr price c (a c.ipfsHash) := by
          have := marginalApr_nonneg price c (a c.ipfsHash) hp hcs hs ht ha
          linarith
        rw [if_pos this]
        rfl
      simp only [allocLoopF, if_pos hb, hsel]
      have hupd : updateAlloc a c.ipfsHash (min 100 b) c.ipfsHash =
          a c.ipfsHash + min 100 b := by
        simp [updateAlloc]
      have hbound : b - 100 ≤ 100 * (n : ℚ) := by
        push_cast at h ⊢
        linarith
      have hmin : (0:ℚ) ≤ min 100 b := le_min (by norm_num) (le_of_lt hb)
      rw [ih (updateAlloc a c.ipfsHash (min 100 b)) (b - 100) hbound (by rw [hupd]; linarith)]
      rw [hupd]
      rcases le_total b 100 with hc | hc
      · rw [min_eq_right hc, max_eq_right (by linarith : b - 100 ≤ (0:ℚ)),
          max_eq_left (le_of_lt hb)]
        ring
      · rw [min_eq_left hc, max_eq_left (by linarith : (0:ℚ) ≤ b - 100),
          max_eq_left (le_of_lt hb)]
        ring
    · rw [allocLoopF_nonpos price [c] _ a b hb]
      rw [max_eq_right (not_lt.mp hb)]
      ring

theorem sumAllocs_update (opps : List Opp) (a : String → ℚ) (best : Opp) (amt : ℚ)
    (hnd : (opps.map Opp.ipfsHash).Nodup) (hmem : best ∈ opps) :
    sumAllocs opps (updateAlloc a best.ipfsHash amt) = sumAllocs opps a + amt := by
  induction opps with
  | nil => simp at hmem
  | cons o rest ih =>
    simp only [List.map_cons, List.nodup_cons] at hnd
    obtain ⟨hno, hndrest⟩ := hnd
    rcases List.mem_cons.mp hmem with rfl | hmem2
    · have hrest : (rest.map (fun o2 => updateAlloc a best.ipfsHash amt o2.ipfsHash)) =
          rest.map (fun o2 => a o2.ipfsHash) := by
        apply List.map_congr_left
        intro o2 h2
        simp only [updateAlloc]
        rw [if_neg]
        intro hcon
        exact hno (hcon ▸ List.mem_map_of_mem Opp.ipfsHash h2)
      simp only [sumAllocs, List.map_cons, List.sum_cons, hrest]
      have hself : updateAlloc a best.ipfsHash amt best.ipfsHash =
          a best.ipfsHash + amt := by
        simp [updateAlloc]
      rw [hself]
      ring
    · have hoid : o.ipfsHash ≠ best.ipfsHash := by
        intro hcon
        exact hno (hcon ▸ List.mem_map_of_mem Opp.ipfsHash hmem2)
      have hrec := ih hndrest hmem2
      simp only [sumAllocs, List.map_cons, List.sum_cons] at hrec ⊢
      simp only [updateAlloc, if_neg hoid]
      simp only [updateAlloc] at hrec
      linarith

theorem allocLoopF_sum_le (price : ℚ) (opps : List Opp)
    (hnd : (opps.map Opp.ipfsHash).Nodup) :
    ∀ (f : ℕ) (a : String → ℚ) (r : ℚ),
    sumAllocs opps ((allocLoopF price opps f a r).1) ≤ sumAllocs opps a + max r 0 := by
  intro f
  induction f with
  | zero =>
    intro a r
    have hmax : (0:ℚ) ≤ max r 0 := le_max_right r 0
    simp only [allocLoopF]
    linarith
  | succ n ih =>
    intro a r
    by_cases hr : 0 < r
    · simp only [allocLoopF, if_pos hr]
      cases hb : selectBest price opps a with
      | none =>
        have hmax : (0:ℚ) ≤ max r 0 := le_max_right r 0
        simp only []
        linarith
      | some best =>
        have hmem : best ∈ opps := by
          unfold selectBest at hb
          rcases bestFrom_mem _ opps (-1) none best hb with hm | he
          · exact hm
          · exact absurd he (by simp)
        have hstep := ih (updateAlloc a best.ipfsHash (min 100 r)) (r - 100)
        rw [sumAllocs_update opps a best (min 100 r) hnd hmem] at hstep
        have harith : min 100 r + max (r - 100) 0 ≤ max r 0 := by
          rcases le_total r 100 with hc | hc
          · rw [min_eq_right hc, max_eq_right (by linarith : r - 100 ≤ (0:ℚ)),
              max_eq_left (le_of_lt hr)]
            linarith
          · rw [min_eq_left hc, max_eq_left (by linarith : (0:ℚ) ≤ r - 100),
              max_eq_left (by linarith : (0:ℚ) ≤ r)]
            linarith
        linarith
    · rw [allocLoopF_nonpos price opps _ a r hr]
      have : (0:ℚ) ≤ max r 0 := le_max_right r 0
      linarith

theorem allocLoopF_budget_mono (price : ℚ) (opps : List Opp) :
    ∀ (f : ℕ) (a : String → ℚ) (b1 b2 : ℚ), b1 ≤ b2 → ∀ id : String,
    (allocLoopF price opps f a b1).1 id ≤ (allocLoopF price opps f a b2).1 id := by
  intro f
  induction f with
  | zero => intro a b1 b2 _ id; exact le_refl _
  | succ n ih =>
    intro a b1 b2 h12 id
    by_cases hb1 : 0 < b1
    · have hb2 : 0 < b2 := lt_of_lt_of_le hb1 h12
      simp only [allocLoopF, if_pos hb1, if_pos hb2]
      cases hb : selectBest price opps a with
      | none => exact le_refl _
      | some best =>
        rcases le_total 100 b1 with hc | hc
        · have hmin : min 100 b1 = min 100 b2 := by
            rw [min_eq_left hc, min_eq_left (le_trans hc h12)]
          rw [hmin]
          exact ih _ (b1 - 100) (b2 - 100) (by linarith) id
        · have h1 : (allocLoopF price opps n
              (updateAlloc a best.ipfsHash (min 100 b1)) (b1 - 100)).1 id =
              updateAlloc a best.ipfsHash (min 100 b1) id := by
            rw [allocLoopF_nonpos price opps n _ (b1 - 100) (by intro hcon; linarith)]
          rw [h1]
          refine le_trans ?_ (allocLoopF_le price opps n _ (b2 - 100) id)
          simp only [updateAlloc]
          by_cases hid : id = best.ipfsHash
          · rw [if_pos hid, if_pos hid]
            have : min 100 b1 ≤ min 100 b2 := min_le_min (le_refl _) h12
            linarith
          · rw [if_neg hid, if_neg hid]
    · rw [allocLoopF_nonpos price opps _ a b1 hb1]
      exact allocLoopF_le price opps _ a b2 id

theorem portionTerm_mono (cs s t a1 a2 : ℚ)
    (hcs : 0 ≤ cs) (hs : 0 ≤ s) (hst : s ≤ t) (ht : 0 < t)
    (h1 : 0 ≤ a1) (h12 : a1 ≤ a2) :
    cs * ((s + a1) / (t + a1)) ≤ cs * ((s + a2) / (t + a2)) := by
  apply mul_le_mul_of_nonneg_left _ hcs
  have d1 : (0:ℚ) < t + a1 := by linarith
  have d2 : (0:ℚ) < t + a2 := by linarith
  rw [div_le_div_iff₀ d1 d2]
  nlinarith

theorem totalEarnings_mono (opps : List Opp) (al1 al2 : String → ℚ)
    (hd : ∀ o ∈ opps, 0 ≤ o.curatorShare ∧ 0 ≤ o.signalAmount ∧
      o.signalAmount ≤ o.signalledTokens ∧ 0 < o.signalledTokens)
    (h1 : ∀ o ∈ opps, 0 ≤ al1 o.ipfsHash)
    (h12 : ∀ o ∈ opps, al1 o.ipfsHash ≤ al2 o.ipfsHash) :
    totalEstimatedEarningsAfter opps al1 ≤ totalEstimatedEarningsAfter opps al2 := by
  induction opps with
  | nil => simp [totalEstimatedEarningsAfter]
  | cons o rest ih =>
    simp only [totalEstimatedEarningsAfter, List.map_cons, List.sum_cons]
    obtain ⟨hcs, hs, hst, ht⟩ := hd o (List.mem_cons_self o rest)
    have hterm := portionTerm_mono o.curatorShare o.signalAmount o.signalledTokens
      (al1 o.ipfsHash) (al2 o.ipfsHash) hcs hs hst ht
      (h1 o (List.mem_cons_self o rest)) (h12 o (List.mem_cons_self o rest))
    have hrest := ih (fun o2 h2 => hd o2 (List.mem_cons_of_mem o h2))
      (fun o2 h2 => h1 o2 (List.mem_cons_of_mem o h2))
      (fun o2 h2 => h12 o2 (List.mem_cons_of_mem o h2))
    simp only [totalEstimatedEarningsAfter] at hrest
    linarith

end LoopLemmas

section ScorerLemmas

theorem div_pow18_pos_iff (x : ℚ) : 0 < x / 10 ^ 18 ↔ 0 < x := by
  constructor
  · intro h
    by_contra hx
    push_neg at hx
    have hle : x / 10 ^ 18 ≤ 0 :=
      div_nonpos_iff.mpr (Or.inr ⟨hx, by norm_num⟩)
    linarith
  · intro h
    exact div_pos h (by norm_num)

theorem scoreDeployment_isSome (q : String → Option ℚ) (p : ℚ) (d : Deployment) :
    (scoreDeployment q p d).isSome ↔ (q d.ipfsHash).isSome := by
  simp only [scoreDeployment]
  cases hq : q d.ipfsHash <;> simp

theorem scoreDeployment_signal (q : String → Option ℚ) (p : ℚ) (d : Deployment)
    (o : Opp) (h : scoreDeployment q p d = some o) :
    o.signalAmount = d.signalAmount / 10 ^ 18 := by
  simp only [scoreDeployment] at h
  cases hq : q d.ipfsHash with
  | none => rw [hq] at h; simp at h
  | some w =>
    rw [hq] at h
    simp only [Option.some_inj] at h
    rw [← h]

theorem scoreDeployment_apr_nonneg (q : String → Option ℚ) (p : ℚ) (d : Deployment)
    (o : Opp) (hp : 0 < p) (hq : ∀ h w, q h = some w → 0 ≤ w)
    (h : scoreDeployment q p d = some o) : 0 ≤ o.apr := by
  simp only [scoreDeployment] at h
  cases hqd : q d.ipfsHash with
  | none => rw [hqd] at h; simp at h
  | some w =>
    rw [hqd] at h
    simp only [Option.some_inj] at h
    have hw : 0 ≤ w := hq d.ipfsHash w hqd
    have hcs : 0 ≤ w * 52 / 100000 * 4 * (1 / 10) := by positivity
    rw [← h]
    by_cases hs : 0 < d.signalAmount / 10 ^ 18
    · simp only [if_pos hs]
      have hportion : 0 ≤ if 0 < d.signalledTokens / 10 ^ 18 then
          d.signalAmount / 10 ^ 18 / (d.signalledTokens / 10 ^ 18) else 0 := by
        by_cases ht : 0 < d.signalledTokens / 10 ^ 18
        · rw [if_pos ht]
          exact div_nonneg (le_of_lt hs) (le_of_lt ht)
        · rw [if_neg ht]
      apply mul_nonneg _ (by norm_num)
      apply div_nonneg (mul_nonneg hcs hportion)
      exact mul_nonneg (le_of_lt hs) (le_of_lt hp)
    · simp only [if_neg hs]
      exact le_refl 0

theorem zip_take_left {α β : Type} : ∀ (n : ℕ) (l1 : List α) (l2 : List β),
    l1.zip (l2.take n) = (l1.take n).zip (l2.take n) := by
  intro n
  induction n with
  | zero => intro l1 l2; simp
  | succ m ih =>
    intro l1 l2
    cases l1 with
    | nil => simp
    | cons a as =>
      cases l2 with
      | nil => simp
      | cons b bs =>
        simp only [List.take_succ_cons, List.zip_cons_cons]
        rw [ih as bs]

end ScorerLemmas

/-- Claim C1: given a budget, step 100 and a candidate list (with nonnegative
curator share, signal and signalled tokens, and a positive price), the greedy
allocator proceeds exactly as described: while remaining budget > 0 it
computes every candidate's marginal APR of adding one step on top of its
current allocation via `new_signal = signal_amount + current_allocation +
100`, `new_signalled = signalled_tokens + current_allocation + 100`,
`portion = new_signal / new_signalled`, `marginal_apr = curator_share *
portion / (new_signal * price) * 100`, picks the candidate with the strictly
greatest marginal APR (the first in iteration order winning ties), commits
`min 100 remaining` to it, and decrements the remaining budget by the full
step of 100. -/
theorem C1_greedy_allocator_refinement (price : ℚ) (opps : List Opp) (B : ℚ)
    (hp : 0 < price)
    (hd : ∀ o ∈ opps, 0 ≤ o.curatorShare ∧ 0 ≤ o.signalAmount ∧ 0 ≤ o.signalledTokens) :
    greedyAllocate price opps B = specGreedyAllocate price opps B := by
  unfold greedyAllocate specGreedyAllocate
  exact allocLoopF_eq_specLoopF price opps hp hd (iterBound B) (fun _ => 0) B
    (fun _ _ => le_refl 0)

/-- Witness for C1 at a concrete candidate and budget. -/
theorem C1_witness : greedyAllocate 1 [c1w] 100 = specGreedyAllocate 1 [c1w] 100 :=
  C1_greedy_allocator_refinement 1 [c1w] 100 (by norm_num)
    (of_decide_eq_true (by with_unfolding_all rfl))

/-- Claim C4: with the single candidate `c4opp`, budget 250 and step 100 the
loop runs exactly 3 iterations: one pass commits 100 (remaining 150), two
passes commit 200 (remaining 50, still positive), and the third pass commits
`min 100 50 = 50` and leaves remaining `50 - 100 = -50`, so the loop exits
with 250 allocated in total. -/
theorem C4_budget_250_scenario :
    (allocLoopF 1 [c4opp] 1 (fun _ => 0) 250).1 "c4" = 100 ∧
    (allocLoopF 1 [c4opp] 1 (fun _ => 0) 250).2 = 150 ∧
    (allocLoopF 1 [c4opp] 2 (fun _ => 0) 250).1 "c4" = 200 ∧
    (allocLoopF 1 [c4opp] 2 (fun _ => 0) 250).2 = 50 ∧
    (allocLoopF 1 [c4opp] 3 (fun _ => 0) 250).1 "c4" = 250 ∧
    (allocLoopF 1 [c4opp] 3 (fun _ => 0) 250).2 = -50 ∧
    iterBound 250 = 3 ∧
    (greedyAllocate 1 [c4opp] 250).1 "c4" = 250 :=
  of_decide_eq_true (by with_unfolding_all rfl)

/-- Counterexample to claim C5 as stated: with a single candidate and budget
250 the code allocates the whole 250, not 200 (the budget rounded down to a
multiple of the step 100). -/
theorem C5_counterexample :
    (greedyAllocate 1 [c5opp] 250).1 "c5" = 250 ∧
    (greedyAllocate 1 [c5opp] 250).1 "c5" ≠ 100 * (⌊(250 : ℚ) / 100⌋ : ℚ) :=
  of_decide_eq_true (by with_unfolding_all rfl)

/-- Claim C5 (amended): for a single-candidate input with nonnegative data, a
positive price and budget B ≥ 0, the candidate receives exactly the whole
budget B — including any final partial step — not B rounded down to a
multiple of the step. -/
theorem C5_single_candidate_amended (price : ℚ) (c : Opp) (B : ℚ)
    (hB : 0 ≤ B) (hp : 0 < price) (hcs : 0 ≤ c.curatorShare)
    (hs : 0 ≤ c.signalAmount) (ht : 0 ≤ c.signalledTokens) :
    (greedyAllocate price [c] B).1 c.ipfsHash = B := by
  unfold greedyAllocate
  rw [allocLoopF_single price c hp hcs hs ht (iterBound B) (fun _ => 0) B
    (le_hundred_iterBound B) (le_refl 0)]
  simp [max_eq_left hB]

/-- Witness for the amended C5 at a concrete candidate and budget 150. -/
theorem C5_witness : (greedyAllocate 1 [c5wopp] 150).1 c5wopp.ipfsHash = 150 :=
  C5_single_candidate_amended 1 c5wopp 150 (by norm_num) (by norm_num)
    (of_decide_eq_true (by with_unfolding_all rfl))
    (of_decide_eq_true (by with_unfolding_all rfl))
    (of_decide_eq_true (by with_unfolding_all rfl))

/-- Claim C6: for every budget B ≥ 0, every price and every candidate list
with distinct ids, the plan assigns a nonnegative amount to every candidate
and the total allocated never exceeds B. -/
theorem C6_allocation_bounds (price : ℚ) (opps : List Opp) (B : ℚ)
    (hB : 0 ≤ B) (hnd : (opps.map Opp.ipfsHash).Nodup) :
    (∀ o ∈ opps, 0 ≤ (greedyAllocate price opps B).1 o.ipfsHash) ∧
    sumAllocs opps ((greedyAllocate price opps B).1) ≤ B := by
  constructor
  · intro o _
    exact allocLoopF_le price opps (iterBound B) (fun _ => 0) B o.ipfsHash
  · have h := allocLoopF_sum_le price opps hnd (iterBound B) (fun _ => 0) B
    have hz : sumAllocs opps (fun _ => 0) = 0 := by
      simp [sumAllocs]
    rw [hz, max_eq_left hB] at h
    unfold greedyAllocate
    linarith

/-- Witness for C6 at a concrete candidate, price 2 and budget 130. -/
theorem C6_witness :
    (∀ o ∈ [c6wopp], 0 ≤ (greedyAllocate 2 [c6wopp] 130).1 o.ipfsHash) ∧
    sumAllocs [c6wopp] ((greedyAllocate 2 [c6wopp] 130).1) ≤ 130 :=
  C6_allocation_bounds 2 [c6wopp] 130 (by norm_num)
    (of_decide_eq_true (by with_unfolding_all rfl))

/-- Counterexample to claim C7 as stated: for the candidate `c7opp`, whose
own signal (200) exceeds the total signalled tokens (100), raising the budget
from 0 to 100 lowers the total post-allocation estimated earnings from 200
to 150. -/
theorem C7_counterexample :
    totalEstimatedEarningsAfter [c7opp] ((greedyAllocate 1 [c7opp] 100).1) <
      totalEstimatedEarningsAfter [c7opp] ((greedyAllocate 1 [c7opp] 0).1) :=
  of_decide_eq_true (by with_unfolding_all rfl)

/-- Claim C7 (amended): for a fixed candidate set in which every candidate
has nonnegative curator share and `0 ≤ signal_amount ≤ signalled_tokens`
with `signalled_tokens > 0`, and for any price and step 100, if
`0 ≤ B1 ≤ B2` then the total post-allocation estimated earnings with budget
B2 is at least that with budget B1. -/
theorem C7_budget_monotone_amended (price : ℚ) (opps : List Opp) (b1 b2 : ℚ)
    (hd : ∀ o ∈ opps, 0 ≤ o.curatorShare ∧ 0 ≤ o.signalAmount ∧
      o.signalAmount ≤ o.signalledTokens ∧ 0 < o.signalledTokens)
    (hb1 : 0 ≤ b1) (h12 : b1 ≤ b2) :
    totalEstimatedEarningsAfter opps ((greedyAllocate price opps b1).1) ≤
      totalEstimatedEarningsAfter opps ((greedyAllocate price opps b2).1) := by
  obtain ⟨k, hk⟩ := Nat.exists_eq_add_of_le (iterBound_mono h12)
  have hstab : greedyAllocate price opps b1 =
      allocLoopF price opps (iterBound b2) (fun _ => 0) b1 := by
    unfold greedyAllocate
    rw [hk]
    exact allocLoopF_fuel_stable price opps k (iterBound b1) (fun _ => 0) b1
      (le_hundred_iterBound b1)
  apply totalEarnings_mono opps _ _ hd
  · intro o _
    exact allocLoopF_le price opps (iterBound b1) (fun _ => 0) b1 o.ipfsHash
  · intro o _
    rw [hstab]
    unfold greedyAllocate
    exact allocLoopF_budget_mono price opps (iterBound b2) (fun _ => 0) b1 b2 h12
      o.ipfsHash

/-- Witness for the amended C7 at a concrete candidate and budgets 0 ≤ 100. -/
theorem C7_witness :
    totalEstimatedEarningsAfter [c7wopp] ((greedyAllocate 1 [c7wopp] 0).1) ≤
      totalEstimatedEarningsAfter [c7wopp] ((greedyAllocate 1 [c7wopp] 100).1) :=
  C7_budget_monotone_amended 1 [c7wopp] 0 100
    (of_decide_eq_true (by with_unfolding_all rfl)) (by norm_num) (by norm_num)

/-- Claim C3 (code bug): a zero denominator is not always substituted with 0.
With `grt_price = 0` the scorer's APR division (guarded only by
`signal_amount > 0`, not by the dollar value of the stake) divides by zero;
a wallet with zero total signal makes the overall user APR divide by zero;
and with budget 0 the allocation report's overall-APR computation divides by
zero.  In each case `none` models the uncaught `ZeroDivisionError` escaping,
where the claim requires the ratio to be replaced by 0. -/
theorem C3_zero_denominator_raises :
    scoreDeploymentE c3q 0 c3dep = none ∧
    overallUserAprE [] 1 = none ∧
    allocationReport 1 [c3opp] (fun _ => 0) 0 = none :=
  of_decide_eq_true (by with_unfolding_all rfl)

/-- Claim C9: the allocation loop terminates for every budget and every
candidate set (including the empty one): a pass with positive remaining
budget either decrements it by the full step of 100 or breaks immediately
when no best candidate exists, so once the iteration allowance covers
`iterBound B` steps the result no longer depends on it and equals the
allocator's output. -/
theorem C9_loop_terminates (price : ℚ) (opps : List Opp) (B : ℚ) (fuel : ℕ)
    (h : iterBound B ≤ fuel) :
    allocLoopF price opps fuel (fun _ => 0) B = greedyAllocate price opps B := by
  unfold greedyAllocate
  obtain ⟨k, rfl⟩ := Nat.exists_eq_add_of_le h
  exact (allocLoopF_fuel_stable price opps k (iterBound B) (fun _ => 0) B
    (le_hundred_iterBound B)).symm

/-- Witness for C9: with an empty candidate set, budget 250 and any fuel
beyond 3 the loop output is already stable. -/
theorem C9_witness :
    allocLoopF 1 [] 5 (fun _ => 0) 250 = greedyAllocate 1 [] 250 :=
  C9_loop_terminates 1 [] 250 5 (of_decide_eq_true (by with_unfolding_all rfl))

/-- Counterexample to claim C2 as stated: quantified over every price, the
scorer can output a record with negative APR — at price -1 the single scored
deployment gets apr = -7280 < 0. -/
theorem C2_counterexample :
    ∃ o ∈ calculate_opportunities [c2dep] c2q (-1), o.apr < 0 :=
  of_decide_eq_true (by with_unfolding_all rfl)

/-- Claim C2 (amended): for every deployment list, every query-count mapping
with nonnegative counts and every positive price, the scorer's output
contains exactly the records of the deployments present in the mapping with
positive signal (an absent id is silently excluded, never an error), every
output record has apr ≥ 0, and the output is sorted descending by apr with
ties kept in input order (stability expressed by key-filtering). -/
theorem C2_scorer_output_amended (deps : List Deployment) (q : String → Option ℚ)
    (price : ℚ) (hp : 0 < price) (hq : ∀ h w, q h = some w → 0 ≤ w) :
    (∀ o, o ∈ calculate_opportunities deps q price ↔
      ∃ d ∈ deps, scoreDeployment q price d = some o ∧ 0 < d.signalAmount) ∧
    (∀ d, (scoreDeployment q price d).isSome ↔ (q d.ipfsHash).isSome) ∧
    (∀ o ∈ calculate_opportunities deps q price, 0 ≤ o.apr) ∧
    (calculate_opportunities deps q price).Pairwise (fun a b => b.apr ≤ a.apr) ∧
    (∀ c : ℚ,
      (calculate_opportunities deps q price).filter (fun o => decide (o.apr = c)) =
      ((deps.filterMap (scoreDeployment q price)).filter
        (fun o => decide (0 < o.signalAmount))).filter (fun o => decide (o.apr = c))) := by
  have hmem : ∀ o : Opp, o ∈ calculate_opportunities deps q price ↔
      ∃ d ∈ deps, scoreDeployment q price d = some o ∧ 0 < d.signalAmount := by
    intro o
    unfold calculate_opportunities
    rw [mem_sortDescBy, List.mem_filter]
    simp only [List.mem_filterMap, decide_eq_true_eq]
    constructor
    · rintro ⟨⟨d, hd, hscore⟩, hpos⟩
      refine ⟨d, hd, hscore, ?_⟩
      rw [scoreDeployment_signal q price d o hscore] at hpos
      exact (div_pow18_pos_iff d.signalAmount).mp hpos
    · rintro ⟨d, hd, hscore, hpos⟩
      refine ⟨⟨d, hd, hscore⟩, ?_⟩
      rw [scoreDeployment_signal q price d o hscore]
      exact (div_pow18_pos_iff d.signalAmount).mpr hpos
  refine ⟨hmem, ?_, ?_, ?_, ?_⟩
  · intro d
    exact scoreDeployment_isSome q price d
  · intro o ho
    obtain ⟨d, _, hscore, _⟩ := (hmem o).mp ho
    exact scoreDeployment_apr_nonneg q price d o hp hq hscore
  · unfold calculate_opportunities
    exact sortDescBy_pairwise Opp.apr _
  · intro c
    unfold calculate_opportunities
    exact sortDescBy_filter_key Opp.apr c _

/-- Witness for the amended C2 at one concrete deployment and price 1. -/
theorem C2_witness :
    (∀ o, o ∈ calculate_opportunities [c2wdep] c2wq 1 ↔
      ∃ d ∈ [c2wdep], scoreDeployment c2wq 1 d = some o ∧ 0 < d.signalAmount) ∧
    (∀ d, (scoreDeployment c2wq 1 d).isSome ↔ (c2wq d.ipfsHash).isSome) ∧
    (∀ o ∈ calculate_opportunities [c2wdep] c2wq 1, 0 ≤ o.apr) ∧
    (calculate_opportunities [c2wdep] c2wq 1).Pairwise (fun a b => b.apr ≤ a.apr) ∧
    (∀ c : ℚ,
      (calculate_opportunities [c2wdep] c2wq 1).filter (fun o => decide (o.apr = c)) =
      (([c2wdep].filterMap (scoreDeployment c2wq 1)).filter
        (fun o => decide (0 < o.signalAmount))).filter (fun o => decide (o.apr = c))) :=
  C2_scorer_output_amended [c2wdep] c2wq 1 (by norm_num) (by
    intro h w hw
    unfold c2wq at hw
    by_cases hh : h = "c2w"
    · rw [if_pos hh] at hw
      injection hw with hw2
      rw [← hw2]
      norm_num
    · rw [if_neg hh] at hw
      exact absurd hw (by simp))

/-- Claim C8: slot i of the recommendation output pairs the wallet's i-th
ranked position with the market's i-th top-5 opportunity; a differing id
yields a move suggestion citing both ids and both APRs, an identical id with
a strictly greater market APR yields an increase suggestion with before and
after APR, and otherwise the slot emits nothing. -/
theorem C8_recommendation_slots (us : List UserOpp) (os : List Opp) (i : ℕ)
    (h : i < (recommendations us os).length) (hu : i < us.length)
    (hm : i < (os.take 5).length) :
    (recommendations us os).get ⟨i, h⟩ =
      (if (us.get ⟨i, hu⟩).ipfsHash ≠ ((os.take 5).get ⟨i, hm⟩).ipfsHash then
        some (Suggestion.move (us.get ⟨i, hu⟩).ipfsHash (us.get ⟨i, hu⟩).apr
          ((os.take 5).get ⟨i, hm⟩).ipfsHash ((os.take 5).get ⟨i, hm⟩).apr)
      else if (us.get ⟨i, hu⟩).apr < ((os.take 5).get ⟨i, hm⟩).apr then
        some (Suggestion.increase (us.get ⟨i, hu⟩).ipfsHash (us.get ⟨i, hu⟩).apr
          ((os.take 5).get ⟨i, hm⟩).apr)
      else none) := by
  simp only [recommendations, List.get_eq_getElem, List.getElem_map, List.getElem_zip]
  rfl

/-- Witness for C8: with one wallet position and one market opportunity whose
ids differ, slot 1 is a move suggestion citing both ids and both APRs. -/
theorem C8_witness :
    (recommendations [c8u] [c8m]).get ⟨0, by decide⟩ =
      some (Suggestion.move "u1" 12 "m1" 40) := by
  have h := C8_recommendation_slots [c8u] [c8m] 0
    (by decide) (by norm_num) (by norm_num)
  simpa [c8u, c8m] using h

/-- Claim C10: recommendations exist only for rank slots up to the shorter of
the wallet's position list and the market's top-5 list — with fewer than 5
wallet positions the remaining market slots produce no suggestion of any
kind, and wallet positions beyond rank 5 are never compared. -/
theorem C10_rank_window (us : List UserOpp) (os : List Opp) :
    (recommendations us os).length = min us.length (min 5 os.length) ∧
    recommendations us os = recommendations (us.take 5) os := by
  constructor
  · simp [recommendations, List.length_zip, List.length_take]
  · unfold recommendations
    rw [zip_take_left 5 us os]

end Curation
